import Mathlib

/-!
Verification development for the `ffmpeg-converter` AWS Lambda (`src/index.js`).

The handler converts an uploaded MP4 into an HLS rendition ladder: it
authenticates GCP, validates the S3 source key, downloads the input,
runs ffmpeg once per rendition profile, synthesizes a master playlist,
uploads every produced file back to the source bucket, publishes a
Pub/Sub notification, and finally removes the local working files.

Strings are modelled as `List Char`; JavaScript regular-expression
replacements are modelled as structurally recursive functions over the
character list.
-/

set_option maxRecDepth 100000

namespace FfmpegConverter

/-- The character class `[A-Za-z0-9._]` of the sanitizer's first regex
(`src/index.js` line 22): ASCII letters, digits, dot and underscore. -/
def allowedChar (c : Char) : Bool :=
  (65 ≤ c.toNat && c.toNat ≤ 90) || (97 ≤ c.toNat && c.toNat ≤ 122) ||
    (48 ≤ c.toNat && c.toNat ≤ 57) || c == '.' || c == '_'

/-- `.replace(/[^A-Za-z0-9._]+/g, "-")` (line 22): every maximal run of
characters outside the allowed class becomes a single hyphen.  The Bool
argument records whether the previous character was part of such a run. -/
def collapseDisallowed : Bool → List Char → List Char
  | _, [] => []
  | false, c :: cs =>
    if allowedChar c then c :: collapseDisallowed false cs
    else '-' :: collapseDisallowed true cs
  | true, c :: cs =>
    if allowedChar c then c :: collapseDisallowed false cs
    else collapseDisallowed true cs

/-- First sanitizer step (line 22). -/
def step1 (s : List Char) : List Char := collapseDisallowed false s

/-- The second replace of the sanitizer (line 23), whose pattern is a
one-or-more repetition of the hyphen: every maximal run of hyphens
becomes a single hyphen. -/
def collapseHyphens : Bool → List Char → List Char
  | _, [] => []
  | false, c :: cs =>
    if c = '-' then '-' :: collapseHyphens true cs
    else c :: collapseHyphens false cs
  | true, c :: cs =>
    if c = '-' then collapseHyphens true cs
    else c :: collapseHyphens false cs

/-- Second sanitizer step (line 23). -/
def step2 (s : List Char) : List Char := collapseHyphens false s

/-- First match of the third replace (line 24): the pattern matches a
hyphen at position 0 and the global replace removes it. -/
def step3a (s : List Char) : List Char :=
  if s.head? = some '-' then s.tail else s

/-- Remaining matches of the third replace (line 24): the pattern also
matches the final character when it is a hyphen or an underscore, and
the replace removes it.  Only the original final character is examined,
so at most one trailing character disappears. -/
def step3b (t : List Char) : List Char :=
  if t.getLast? = some '-' ∨ t.getLast? = some '_' then t.dropLast else t

/-- `.replace(/^-|-$|_$/g, "")` (line 24).  A global replace finds its
non-overlapping matches in the original string: a hyphen at position 0,
and the final character when it is a hyphen or an underscore.  At most
one character is removed at each end. -/
def step3 (s : List Char) : List Char := step3b (step3a s)

/-- `sanitizeFilename` (`src/index.js` lines 20-25), applied by the handler
to the base filename (extension already stripped). -/
def sanitizeFilename (s : List Char) : List Char := step3 (step2 (step1 s))

/-- Characters that occur in the sanitizer's intermediate strings:
allowed characters and the hyphen. -/
def okChar (c : Char) : Bool := allowedChar c || c == '-'

/-- No two adjacent hyphens. -/
def noDH : List Char → Bool
  | c :: d :: rest => (!(c == '-' && d == '-')) && noDH (d :: rest)
  | _ => true

/-- All characters of the list differ from the path separator
(the complement class of the slash in the key regex). -/
def noSlash (l : List Char) : Bool := l.all (fun c => !(c == '/'))

/-- Some character other than the last one is a dot. -/
def dotNotLast : List Char → Bool
  | [] => false
  | [_] => false
  | c :: d :: rest => (c == '.') || dotNotLast (d :: rest)

/-- The filename part of the key regex (line 73): one or more non-slash
characters, a literal dot, one or more non-slash characters.  A list
matches exactly when it is slash-free and has a dot that is neither its
first nor its last character. -/
def extSeg : List Char → Bool
  | [] => false
  | c :: rest => noSlash (c :: rest) && dotNotLast rest

/-- The character list of the literal prefix of the key regex. -/
def srcPre : List Char := ['s', 'o', 'u', 'r', 'c', 'e', '/']

/-- `sourceKeyPattern.test(sourceKey)` (`src/index.js` lines 73-74): the
anchored regex demands the literal prefix, then a non-empty slash-free
owner segment, a slash, and a filename matching `extSeg`.  Because the
segment classes exclude the slash, the owner segment necessarily extends
to the first slash after the prefix, and the remainder of the key is the
filename segment. -/
def sourceKeyTest (k : List Char) : Bool :=
  decide (k.take 7 = srcPre) &&
    (let r := (k.drop 7).dropWhile (fun c => !(c == '/'))
     !((k.drop 7).takeWhile (fun c => !(c == '/'))).isEmpty &&
       decide (r.head? = some '/') && extSeg r.tail)

/-- The acceptance condition as the specification words it: the decoded
key has the form `source/<segment>/<segment>.<ext>` with two non-empty
slash-free segments after the prefix, the filename consisting of a
non-empty stem, an extension separator and a non-empty extension. -/
def specValidKey (k : List Char) : Prop :=
  ∃ a p q, k = srcPre ++ a ++ '/' :: (p ++ '.' :: q) ∧
    a ≠ [] ∧ p ≠ [] ∧ q ≠ [] ∧
    noSlash a = true ∧ noSlash p = true ∧ noSlash q = true

/-- Splitting accumulator; models `String.prototype.split` with a
one-character separator. -/
def splitOnCharAux (sep : Char) : List Char → List Char → List (List Char)
  | [], acc => [acc.reverse]
  | c :: cs, acc =>
    if c == sep then acc.reverse :: splitOnCharAux sep cs []
    else splitOnCharAux sep cs (c :: acc)

/-- `s.split(sep)` for a one-character separator (line 79). -/
def splitOnChar (sep : Char) (l : List Char) : List (List Char) :=
  splitOnCharAux sep l []

/-- `path.basename(p)`: the part of `p` after its last slash (the
handler only applies it to paths without trailing slashes). -/
def basenameChars (p : List Char) : List Char :=
  (splitOnChar '/' p).getLastD []

/-- Decimal digit characters of a natural number (fuel-based recursion
so that the kernel can evaluate it). -/
def natCharsAux : Nat → Nat → List Char
  | 0, _ => []
  | fuel + 1, n =>
    if n < 10 then [Char.ofNat (48 + n)]
    else natCharsAux fuel (n / 10) ++ [Char.ofNat (48 + n % 10)]

/-- Decimal representation of a natural number. -/
def natChars (n : Nat) : List Char := natCharsAux (n + 1) n

/-- `parseInt(s, 10)` (lines 122 and 148): value of the maximal run of
leading decimal digits; `none` models the NaN result when the string has
no leading digit. -/
def parseIntJS (l : List Char) : Option Nat :=
  let ds := l.takeWhile Char.isDigit
  if ds.isEmpty then none
  else some (ds.foldl (fun a c => a * 10 + (c.toNat - 48)) 0)

/-- One profile of the fixed `resolutions` ladder (lines 103-107). -/
structure Res where
  name : List Char
  width : Nat
  height : Nat
  bitrate : List Char
deriving DecidableEq

/-- The fixed three-profile ladder (lines 103-107). -/
def resolutions : List Res :=
  [{ name := "1080p".toList, width := 1920, height := 1080, bitrate := "5000k".toList },
   { name := "720p".toList, width := 1280, height := 720, bitrate := "3000k".toList },
   { name := "480p".toList, width := 854, height := 480, bitrate := "1500k".toList }]

/-- The object pushed onto `playlists` at line 112.  It carries exactly
the fields `name`, `bitrate` and `playlist`; the ladder profile's
`width` and `height` are not copied into it. -/
structure PlaylistEntry where
  name : List Char
  bitrate : List Char
  playlist : List Char
deriving DecidableEq

/-- `/tmp/output/` (line 17). -/
def TEMP_OUTPUT_DIR : List Char := "/tmp/output/".toList

/-- `path.join(a, b)` for the handler's uses, in which `a` ends with a
slash or is slash-free and `b` is a bare filename. -/
def joinPath (a b : List Char) : List Char :=
  if a.getLast? = some '/' then a ++ b else a ++ '/' :: b

/-- The entry pushed for profile `r` (lines 111-112). -/
def entryOf (r : Res) : PlaylistEntry :=
  { name := r.name, bitrate := r.bitrate,
    playlist := joinPath TEMP_OUTPUT_DIR (r.name ++ ".m3u8".toList) }

/-- Reading `res.width` in the master-playlist template literal
(line 148): the objects of `playlists` were built at line 112 without a
`width` field, so the JavaScript property access yields `undefined`. -/
def PlaylistEntry.width (_ : PlaylistEntry) : Option Nat := none

/-- Reading `res.height` (line 148): likewise absent from the pushed
object, so the access yields `undefined`. -/
def PlaylistEntry.height (_ : PlaylistEntry) : Option Nat := none

/-- Template-literal interpolation of a possibly-undefined number. -/
def jsShowUndef : Option Nat → List Char
  | none => "undefined".toList
  | some n => natChars n

/-- Template-literal interpolation of a possibly-NaN number (the result
of `parseInt(...) * 1000` at line 148). -/
def jsShowNaN : Option Nat → List Char
  | none => "NaN".toList
  | some n => natChars n

/-- One mapped element of the master playlist (lines 146-151): the
stream-information line followed on the next line by the bare filename
of the rendition playlist. -/
def streamInfPair (e : PlaylistEntry) : List Char :=
  "#EXT-X-STREAM-INF:BANDWIDTH=".toList ++
    jsShowNaN ((parseIntJS e.bitrate).map (· * 1000)) ++
    ",RESOLUTION=".toList ++ jsShowUndef e.width ++
    'x' :: jsShowUndef e.height ++ '\n' :: basenameChars e.playlist

/-- The bytes written to `master.m3u8` (lines 145-154): fixed two-line
header, then the mapped pairs joined with newlines. -/
def masterContent (entries : List PlaylistEntry) : List Char :=
  "#EXTM3U\n#EXT-X-VERSION:3\n".toList ++
    List.intercalate ['\n'] (entries.map streamInfPair)

/-- The `playlists` array as it stands after a fully successful ladder
(one entry per profile, in ladder order). -/
def stdEntries : List PlaylistEntry := resolutions.map entryOf

/-- The master playlist the handler writes on a fully successful run. -/
def masterChars : List Char := masterContent stdEntries

/-- Lines of a character string, splitting at newlines. -/
def linesOf (l : List Char) : List (List Char) := splitOnChar '\n' l

/-- Whether `p` is an initial run of `l`. -/
def startsChars (p l : List Char) : Bool := decide (l.take p.length = p)

/-- The stream-information lines of a playlist. -/
def infLinesOf (l : List Char) : List (List Char) :=
  (linesOf l).filter (fun s => startsChars ("#EXT-X-STREAM-INF:".toList) s)

/-- The BANDWIDTH attribute value of a stream-information line. -/
def bandwidthOf (s : List Char) : Option Nat :=
  parseIntJS (s.drop ("#EXT-X-STREAM-INF:BANDWIDTH=".toList).length)

/-- `path.extname(p)` (line 81): the extension of the basename of `p` —
from the last dot of the basename when that dot is not the first
character of the basename; empty otherwise. -/
def extnameChars (p : List Char) : List Char :=
  match basenameChars p with
  | [] => []
  | _ :: rest =>
    let afterDot := rest.reverse.takeWhile (fun c => !(c == '.'))
    if afterDot.length = rest.length then []
    else '.' :: afterDot.reverse

/-- Whether `suf` is a final run of `l`. -/
def endsWithChars (suf l : List Char) : Bool :=
  decide (suf.length ≤ l.length) && decide (l.drop (l.length - suf.length) = suf)

/-- `path.basename(p, ext)` (line 81): the basename with a final `ext`
stripped when the basename ends with `ext` and is not `ext` itself. -/
def basenameStrip (p ext : List Char) : List Char :=
  let b := basenameChars p
  if ext.isEmpty then b
  else if decide (b = ext) then b
  else if endsWithChars ext b then b.take (b.length - ext.length)
  else b

/-- `rawFilename` (line 81). -/
def rawFilenameOf (k : List Char) : List Char :=
  basenameStrip k (extnameChars k)

/-- `baseFilename` (line 82). -/
def baseFilenameOf (k : List Char) : List Char :=
  sanitizeFilename (rawFilenameOf k)

/-- `uniqueKey` (lines 79-80): the second slash-separated part of the
validated key. -/
def uniqueKeyOf (k : List Char) : List Char :=
  (splitOnChar '/' k).getD 1 []

/-- `targetPrefix` (line 83). -/
def targetPrefixOf (k : List Char) : List Char :=
  "hls/".toList ++ uniqueKeyOf k ++ '/' :: baseFilenameOf k ++ ['/']

/-- Observable actions of one handler invocation, in program order:
GCP authentication, key validation, the S3 download, one encoder
invocation per profile, the master-playlist write, one S3 upload per
output file, the Pub/Sub publish, and the two cleanup removals. -/
inductive Eff where
  | auth : Eff
  | validate : Eff
  | fetch : List Char → List Char → Eff
  | encode : List Char → Eff
  | writeMaster : Eff
  | put : List Char → List Char → Eff
  | publish : Eff
  | rmInput : Eff
  | rmOutputDir : Eff
deriving DecidableEq

/-- Terminal outcome of one invocation: the returned response or the
error that propagates out of the handler. -/
inductive Outcome where
  | ok : Outcome
  | authErr : Outcome
  | validationErr : Outcome
  | fetchErr : Outcome
  | encodeErr : List Char → Outcome
  | uploadErr : Outcome
  | publishErr : Outcome
deriving DecidableEq

/-- The local working set: whether `/tmp/input.mp4` exists, whether
`/tmp/output/` exists, and the filenames inside `/tmp/output/`. -/
structure FS where
  input : Bool
  outDir : Bool
  files : List (List Char)
deriving DecidableEq

/-- Behaviour of the external collaborators during one invocation:
whether `GCP_SERVICE_KEY` is set, whether the S3 download succeeds,
which profiles' ffmpeg invocations exit zero, which segment files each
successful profile produces, which per-file uploads succeed, and whether
the Pub/Sub publish succeeds. -/
structure Oracles where
  gcpKey : Bool
  fetchOk : Bool
  encOk : List Char → Bool
  segsFor : List Char → List (List Char)
  putOk : List Char → Bool
  pubOk : Bool

/-- The `finally` block (lines 187-195): remove the input file if
present, recursively remove the output directory if present. -/
def cleanupEffs (fs : FS) : List Eff :=
  (if fs.input then [Eff.rmInput] else []) ++
    (if fs.outDir then [Eff.rmOutputDir] else [])

/-- The local state after the `finally` block: nothing survives. -/
def cleanFS : FS := { input := false, outDir := false, files := [] }

/-- The encode-ladder loop (lines 110-141): strictly sequential over the
profiles; each iteration invokes ffmpeg once and, on success, gains that
profile's segment files and rendition playlist; the first non-zero exit
rethrows immediately, identifying the failing profile (the rethrown exec
error carries the failing command line, which names the profile in its
output paths), and leaves the files of earlier profiles in place. -/
def ladderGo (o : Oracles) : FS → List Res → FS × Option (List Char) × List Eff
  | fs, [] => (fs, none, [])
  | fs, r :: rest =>
    if o.encOk r.name then
      let fs' : FS :=
        { fs with files := fs.files ++ o.segsFor r.name ++ [r.name ++ ".m3u8".toList] }
      let res := ladderGo o fs' rest
      (res.1, res.2.1, Eff.encode r.name :: res.2.2)
    else (fs, some r.name, [Eff.encode r.name])

/-- The upload loop (lines 157-172): one `s3.upload` per file of the
output directory, to the target bucket under the target prefix; the
first failing upload rethrows and stops the loop. -/
def uploadsGo (o : Oracles) (bucket pre : List Char) :
    List (List Char) → Bool × List Eff
  | [] => (true, [])
  | f :: rest =>
    let e := Eff.put bucket (joinPath pre f)
    if o.putOk f then
      let res := uploadsGo o bucket pre rest
      (res.1, e :: res.2)
    else (false, [e])

/-- The `try`/`catch`/`finally` body of the handler (lines 90-195):
download, ensure the output directory, run the ladder, write the master
playlist, upload every file, publish; every exit path — success or any
thrown error — runs the cleanup of lines 187-195. -/
def processStage (o : Oracles) (bucket key : List Char) (fs : FS) :
    Outcome × FS × List Eff :=
  if o.fetchOk then
    let fs2 : FS := { input := true, outDir := true, files := fs.files }
    let lad := ladderGo o fs2 resolutions
    match lad.2.1 with
    | some p =>
      (Outcome.encodeErr p, cleanFS,
        [Eff.fetch bucket key] ++ lad.2.2 ++ cleanupEffs lad.1)
    | none =>
      let fs5 : FS := { lad.1 with files := lad.1.files ++ ["master.m3u8".toList] }
      let up := uploadsGo o bucket (targetPrefixOf key) fs5.files
      if up.1 then
        if o.pubOk then
          (Outcome.ok, cleanFS,
            [Eff.fetch bucket key] ++ lad.2.2 ++
              [Eff.writeMaster] ++ up.2 ++ [Eff.publish] ++ cleanupEffs fs5)
        else
          (Outcome.publishErr, cleanFS,
            [Eff.fetch bucket key] ++ lad.2.2 ++
              [Eff.writeMaster] ++ up.2 ++ [Eff.publish] ++ cleanupEffs fs5)
      else
        (Outcome.uploadErr, cleanFS,
          [Eff.fetch bucket key] ++ lad.2.2 ++
            [Eff.writeMaster] ++ up.2 ++ cleanupEffs fs5)
  else
    (Outcome.fetchErr, cleanFS, [Eff.fetch bucket key] ++ cleanupEffs fs)

/-- The whole handler (lines 62-196) on the already-decoded key:
`authenticateGCP()` runs first and throws when `GCP_SERVICE_KEY` is
absent; the key-format validation (lines 72-76) runs next and throws on
mismatch; both happen before the `try` block, so neither path runs the
cleanup of the `finally`.  Only then does the protected processing stage
begin. -/
def handlerModel (o : Oracles) (bucket key : List Char) (fs : FS) :
    Outcome × FS × List Eff :=
  if o.gcpKey then
    if sourceKeyTest key then
      let res := processStage o bucket key fs
      (res.1, res.2.1, [Eff.auth, Eff.validate] ++ res.2.2)
    else (Outcome.validationErr, fs, [Eff.auth, Eff.validate])
  else (Outcome.authErr, fs, [Eff.auth])

/-- Environment in which every collaborator succeeds and each encode
produces no extra segment files. -/
def allOk : Oracles :=
  { gcpKey := true, fetchOk := true, encOk := fun _ => true,
    segsFor := fun _ => [], putOk := fun _ => true, pubOk := true }

/-- An empty local working set at invocation start. -/
def fs0 : FS := { input := false, outDir := false, files := [] }

/-- A local working set in which a stale input file and output directory
are still present when the invocation starts. -/
def fsDirty : FS := { input := true, outDir := true, files := [] }

/-- Environment in which only the first profile's encoder succeeds. -/
def failSecond : Oracles := { allOk with encOk := fun n => n == "1080p".toList }

theorem dotNotLast_iff (m : List Char) :
    dotNotLast m = true ↔ ∃ p q, m = p ++ '.' :: q ∧ q ≠ [] := by
  induction m with
  | nil =>
    simp only [dotNotLast]
    constructor
    · intro h; cases h
    · rintro ⟨p, q, hpq, -⟩
      exact absurd hpq.symm (List.append_ne_nil_of_right_ne_nil p (by simp))
  | cons c rest ih =>
    cases rest with
    | nil =>
      simp only [dotNotLast]
      constructor
      · intro h; cases h
      · rintro ⟨p, q, hpq, hq⟩
        have hlen := congrArg List.length hpq
        simp [List.length_append] at hlen
        cases q with
        | nil => exact absurd rfl hq
        | cons e q' => simp at hlen; omega
    | cons d rest' =>
      simp only [dotNotLast, Bool.or_eq_true, beq_iff_eq]
      constructor
      · rintro (hc | h)
        · exact ⟨[], d :: rest', by simp [hc], by simp⟩
        · obtain ⟨p, q, hpq, hq⟩ := ih.mp h
          exact ⟨c :: p, q, by simp [hpq], hq⟩
      · rintro ⟨p, q, hpq, hq⟩
        cases p with
        | nil =>
          simp at hpq
          exact Or.inl hpq.1
        | cons e p' =>
          simp at hpq
          exact Or.inr (ih.mpr ⟨p', q, hpq.2, hq⟩)

theorem takeWhile_eq_of_all {P : Char → Bool} (a : List Char) (x : Char)
    (b : List Char) (ha : ∀ c ∈ a, P c = true) (hx : P x = false) :
    (a ++ x :: b).takeWhile P = a := by
  induction a with
  | nil => simp [List.takeWhile, hx]
  | cons c cs ih =>
    have hc : P c = true := ha c (by simp)
    simp only [List.cons_append, List.takeWhile_cons, hc, if_true]
    rw [ih (fun d hd => ha d (by simp [hd]))]

theorem dropWhile_eq_of_all {P : Char → Bool} (a : List Char) (x : Char)
    (b : List Char) (ha : ∀ c ∈ a, P c = true) (hx : P x = false) :
    (a ++ x :: b).dropWhile P = x :: b := by
  induction a with
  | nil => simp [List.dropWhile, hx]
  | cons c cs ih =>
    have hc : P c = true := ha c (by simp)
    simp only [List.cons_append, List.dropWhile_cons, hc, if_true]
    exact ih (fun d hd => ha d (by simp [hd]))

theorem noSlash_takeWhile (l : List Char) :
    noSlash (l.takeWhile (fun c => !(c == '/'))) = true := by
  simp only [noSlash, List.all_eq_true]
  intro c hc
  simpa using List.mem_takeWhile_imp hc

theorem eq_cons_tail_of_headq {l : List Char} {x : Char}
    (h : l.head? = some x) : l = x :: l.tail := by
  cases l with
  | nil => simp at h
  | cons c t =>
    simp only [List.head?_cons, Option.some_inj] at h
    simp [h]

theorem sourceKeyTest_iff (k : List Char) :
    sourceKeyTest k = true ↔ specValidKey k := by
  constructor
  · intro h
    simp only [sourceKeyTest, Bool.and_eq_true, decide_eq_true_eq,
      Bool.not_eq_true'] at h
    obtain ⟨h1, ⟨h2, h3⟩, h4⟩ := h
    have hk : k = srcPre ++ k.drop 7 := by
      conv_lhs => rw [← List.take_append_drop 7 k]
      rw [h1]
    have hsplit :
        (k.drop 7).takeWhile (fun c => !(c == '/')) ++
          (k.drop 7).dropWhile (fun c => !(c == '/')) = k.drop 7 :=
      List.takeWhile_append_dropWhile _ _
    have hna : noSlash ((k.drop 7).takeWhile (fun c => !(c == '/'))) = true :=
      noSlash_takeWhile _
    obtain ⟨a, ha⟩ : ∃ a, (k.drop 7).takeWhile (fun c => !(c == '/')) = a :=
      ⟨_, rfl⟩
    obtain ⟨r, hrq⟩ : ∃ r, (k.drop 7).dropWhile (fun c => !(c == '/')) = r :=
      ⟨_, rfl⟩
    rw [ha] at h2 hna
    rw [hrq] at h3 h4
    rw [ha, hrq] at hsplit
    have hane : a ≠ [] := by
      intro hnil
      rw [hnil] at h2
      simp at h2
    have hr : r = '/' :: r.tail := eq_cons_tail_of_headq h3
    cases hbt : r.tail with
    | nil => rw [hbt] at h4; simp [extSeg] at h4
    | cons c rest2 =>
      rw [hbt] at h4
      simp only [extSeg, Bool.and_eq_true] at h4
      obtain ⟨hns, hdl⟩ := h4
      obtain ⟨p0, q, hsp, hq⟩ := (dotNotLast_iff rest2).mp hdl
      have hns2 : noSlash (c :: (p0 ++ '.' :: q)) = true := by
        rw [← hsp]; exact hns
      refine ⟨a, c :: p0, q, ?_, hane, by simp, hq, hna, ?_, ?_⟩
      · conv_lhs => rw [hk]
        rw [← hsplit, hr, hbt, hsp]
        simp
      · simp only [noSlash, List.all_eq_true] at hns2 ⊢
        intro d hd
        apply hns2
        simp only [List.mem_cons, List.mem_append] at hd ⊢
        tauto
      · simp only [noSlash, List.all_eq_true] at hns2 ⊢
        intro d hd
        apply hns2
        simp only [List.mem_cons, List.mem_append] at hd ⊢
        tauto
  · rintro ⟨a, p, q, hk, hane, hpne, hqne, hna, hnp, hnq⟩
    have hP : ∀ c ∈ a, (fun c => !(c == '/')) c = true := by
      simp only [noSlash, List.all_eq_true] at hna
      exact hna
    have hPx : (fun c => !(c == '/')) '/' = false := by simp
    have htake : (k.take 7) = srcPre := by rw [hk]; rfl
    have hdrop : (k.drop 7) = a ++ '/' :: (p ++ '.' :: q) := by rw [hk]; rfl
    simp only [sourceKeyTest, Bool.and_eq_true, decide_eq_true_eq,
      Bool.not_eq_true']
    rw [htake, hdrop, takeWhile_eq_of_all a '/' _ hP hPx,
      dropWhile_eq_of_all a '/' _ hP hPx]
    refine ⟨rfl, ⟨?_, by simp⟩, ?_⟩
    · cases a with
      | nil => exact absurd rfl hane
      | cons c cs => rfl
    · show extSeg (p ++ '.' :: q) = true
      cases p with
      | nil => exact absurd rfl hpne
      | cons c p' =>
        simp only [List.cons_append, extSeg, Bool.and_eq_true]
        constructor
        · simp only [noSlash, List.all_eq_true] at hnp hnq ⊢
          intro d hd
          simp at hd
          rcases hd with hd | hd | hd
          · exact hnp d (by simp [hd])
          · exact hnp d (by simp [hd])
          · rcases hd with hd | hd
            · simp [hd]
            · exact hnq d hd
        · exact (dotNotLast_iff _).mpr ⟨p', q, rfl, hqne⟩

theorem noDH_cons {c : Char} {cs : List Char} (h : noDH (c :: cs) = true) :
    noDH cs = true ∧ (c = '-' → cs.head? ≠ some '-') := by
  cases cs with
  | nil => exact ⟨rfl, fun _ hh => by simp at hh⟩
  | cons d rest =>
    simp only [noDH, Bool.and_eq_true, Bool.not_eq_true'] at h
    refine ⟨?_, fun hc hd => ?_⟩
    · exact h.2
    · simp only [List.head?_cons, Option.some_inj] at hd
      rw [hc, hd] at h
      simp at h

theorem noDH_cons_of {c : Char} {cs : List Char} (h1 : noDH cs = true)
    (h2 : c = '-' → cs.head? ≠ some '-') : noDH (c :: cs) = true := by
  cases cs with
  | nil => rfl
  | cons d rest =>
    simp only [noDH, Bool.and_eq_true, Bool.not_eq_true']
    refine ⟨?_, h1⟩
    by_cases hc : c = '-'
    · have hd : d ≠ '-' := fun hdd => h2 hc (by simp [hdd])
      simp [hd]
    · simp [hc]

theorem noDH_tail {l : List Char} (h : noDH l = true) : noDH l.tail = true := by
  cases l with
  | nil => rfl
  | cons c cs => exact (noDH_cons h).1

theorem noDH_dropLast {l : List Char} (h : noDH l = true) :
    noDH l.dropLast = true := by
  induction l with
  | nil => rfl
  | cons c cs ih =>
    cases cs with
    | nil => rfl
    | cons d rest =>
      obtain ⟨h1, h2⟩ := noDH_cons h
      rw [List.dropLast_cons₂]
      refine noDH_cons_of (ih h1) ?_
      intro hc hh
      have hd : d = '-' := by
        cases rest with
        | nil => simp at hh
        | cons e rest' =>
          rw [List.dropLast_cons₂] at hh
          simpa using hh
      exact h2 hc (by simp [hd])

theorem headq_of_dropLast {l : List Char} {c : Char}
    (h : l.dropLast.head? = some c) : l.head? = some c := by
  cases l with
  | nil => simp at h
  | cons a cs =>
    cases cs with
    | nil => simp at h
    | cons d rest =>
      rw [List.dropLast_cons₂] at h
      simpa using h

theorem okChar_collapseDisallowed :
    ∀ (b : Bool) (l : List Char), ∀ c ∈ collapseDisallowed b l, okChar c = true := by
  intro b l
  induction l generalizing b with
  | nil => intro c hc; cases b <;> simp [collapseDisallowed] at hc
  | cons d cs ih =>
    intro c hc
    by_cases hd : allowedChar d = true
    · cases b <;>
        · simp only [collapseDisallowed, if_pos hd] at hc
          rcases List.mem_cons.mp hc with rfl | hc
          · simp [okChar, hd]
          · exact ih _ c hc
    · cases b with
      | false =>
        simp only [collapseDisallowed, if_neg hd] at hc
        rcases List.mem_cons.mp hc with rfl | hc
        · simp [okChar]
        · exact ih _ c hc
      | true =>
        simp only [collapseDisallowed, if_neg hd] at hc
        exact ih _ c hc

theorem collapse1_noDH (l : List Char) :
    noDH (collapseDisallowed false l) = true ∧
      noDH (collapseDisallowed true l) = true ∧
      (collapseDisallowed true l).head? ≠ some '-' := by
  induction l with
  | nil => exact ⟨rfl, rfl, by simp [collapseDisallowed]⟩
  | cons d cs ih =>
    obtain ⟨ihf, iht, ihh⟩ := ih
    by_cases hd : allowedChar d = true
    · have hne : d ≠ '-' := by
        intro hdd
        rw [hdd] at hd
        exact absurd hd (by decide)
      refine ⟨?_, ?_, ?_⟩
      · simp only [collapseDisallowed, if_pos hd]
        exact noDH_cons_of ihf (fun hc => absurd hc hne)
      · simp only [collapseDisallowed, if_pos hd]
        exact noDH_cons_of ihf (fun hc => absurd hc hne)
      · simp only [collapseDisallowed, if_pos hd]
        simp [hne]
    · refine ⟨?_, ?_, ?_⟩
      · simp only [collapseDisallowed, if_neg hd]
        exact noDH_cons_of iht (fun _ => ihh)
      · simp only [collapseDisallowed, if_neg hd]
        exact iht
      · simp only [collapseDisallowed, if_neg hd]
        exact ihh

theorem collapse2_subset :
    ∀ (b : Bool) (l : List Char), ∀ c ∈ collapseHyphens b l, c ∈ l := by
  intro b l
  induction l generalizing b with
  | nil => intro c hc; cases b <;> simp [collapseHyphens] at hc
  | cons d cs ih =>
    intro c hc
    by_cases hd : d = '-'
    · cases b with
      | false =>
        simp only [collapseHyphens, if_pos hd] at hc
        rcases List.mem_cons.mp hc with rfl | hc
        · simp [hd]
        · exact List.mem_cons_of_mem d (ih _ c hc)
      | true =>
        simp only [collapseHyphens, if_pos hd] at hc
        exact List.mem_cons_of_mem d (ih _ c hc)
    · cases b <;>
        · simp only [collapseHyphens, if_neg hd] at hc
          rcases List.mem_cons.mp hc with rfl | hc
          · simp
          · exact List.mem_cons_of_mem d (ih _ c hc)

theorem collapse2_noDH (l : List Char) :
    noDH (collapseHyphens false l) = true ∧
      noDH (collapseHyphens true l) = true ∧
      (collapseHyphens true l).head? ≠ some '-' := by
  induction l with
  | nil => exact ⟨rfl, rfl, by simp [collapseHyphens]⟩
  | cons d cs ih =>
    obtain ⟨ihf, iht, ihh⟩ := ih
    by_cases hd : d = '-'
    · refine ⟨?_, ?_, ?_⟩
      · simp only [collapseHyphens, if_pos hd]
        exact noDH_cons_of iht (fun _ => ihh)
      · simp only [collapseHyphens, if_pos hd]
        exact iht
      · simp only [collapseHyphens, if_pos hd]
        exact ihh
    · refine ⟨?_, ?_, ?_⟩
      · simp only [collapseHyphens, if_neg hd]
        exact noDH_cons_of ihf (fun hc => absurd hc hd)
      · simp only [collapseHyphens, if_neg hd]
        exact noDH_cons_of ihf (fun hc => absurd hc hd)
      · simp only [collapseHyphens, if_neg hd]
        simp [hd]

theorem collapse2_id (l : List Char) (h : noDH l = true) :
    collapseHyphens false l = l ∧
      (l.head? ≠ some '-' → collapseHyphens true l = l) := by
  induction l with
  | nil => exact ⟨rfl, fun _ => rfl⟩
  | cons d cs ih =>
    obtain ⟨h1, h2⟩ := noDH_cons h
    obtain ⟨ihf, iht⟩ := ih h1
    by_cases hd : d = '-'
    · refine ⟨?_, ?_⟩
      · simp only [collapseHyphens, if_pos hd]
        rw [iht (h2 hd), hd]
      · intro hh
        exact absurd (by simp [hd]) hh
    · refine ⟨?_, fun _ => ?_⟩ <;>
        · simp only [collapseHyphens, if_neg hd]
          rw [ihf]

theorem collapse1_id (l : List Char) (hchar : ∀ c ∈ l, okChar c = true)
    (h : noDH l = true) :
    collapseDisallowed false l = l ∧
      (l.head? ≠ some '-' → collapseDisallowed true l = l) := by
  induction l with
  | nil => exact ⟨rfl, fun _ => rfl⟩
  | cons d cs ih =>
    obtain ⟨h1, h2⟩ := noDH_cons h
    obtain ⟨ihf, iht⟩ := ih (fun c hc => hchar c (List.mem_cons_of_mem d hc)) h1
    have hdok : okChar d = true := hchar d (by simp)
    by_cases hd : allowedChar d = true
    · refine ⟨?_, fun _ => ?_⟩ <;>
        · simp only [collapseDisallowed, if_pos hd]
          rw [ihf]
    · have hdh : d = '-' := by
        simp only [okChar, Bool.or_eq_true, beq_iff_eq] at hdok
        rcases hdok with hdok | hdok
        · exact absurd hdok hd
        · exact hdok
      refine ⟨?_, ?_⟩
      · simp only [collapseDisallowed, if_neg hd]
        rw [hdh, iht (h2 hdh)]
      · intro hh
        exact absurd (by simp [hdh]) hh

theorem step3a_subset (s : List Char) : ∀ c ∈ step3a s, c ∈ s := by
  intro c hc
  simp only [step3a] at hc
  by_cases hh : s.head? = some '-'
  · rw [if_pos hh] at hc
    exact List.tail_subset s hc
  · rw [if_neg hh] at hc
    exact hc

theorem step3b_subset (t : List Char) : ∀ c ∈ step3b t, c ∈ t := by
  intro c hc
  simp only [step3b] at hc
  by_cases hl : t.getLast? = some '-' ∨ t.getLast? = some '_'
  · rw [if_pos hl] at hc
    exact List.dropLast_subset t hc
  · rw [if_neg hl] at hc
    exact hc

theorem step3_noDH {t : List Char} (h : noDH t = true) :
    noDH (step3 t) = true := by
  have h3a : noDH (step3a t) = true := by
    simp only [step3a]
    by_cases hh : t.head? = some '-'
    · rw [if_pos hh]; exact noDH_tail h
    · rw [if_neg hh]; exact h
  simp only [step3, step3b]
  by_cases hl : (step3a t).getLast? = some '-' ∨ (step3a t).getLast? = some '_'
  · rw [if_pos hl]; exact noDH_dropLast h3a
  · rw [if_neg hl]; exact h3a

theorem step3_headq {t : List Char} (h : noDH t = true) :
    (step3 t).head? ≠ some '-' := by
  have h3a : (step3a t).head? ≠ some '-' := by
    simp only [step3a]
    by_cases hh : t.head? = some '-'
    · rw [if_pos hh]
      have hcons : t = '-' :: t.tail := eq_cons_tail_of_headq hh
      have h' : noDH ('-' :: t.tail) = true := by rw [← hcons]; exact h
      exact (noDH_cons h').2 rfl
    · rw [if_neg hh]; exact hh
  simp only [step3, step3b]
  by_cases hl : (step3a t).getLast? = some '-' ∨ (step3a t).getLast? = some '_'
  · rw [if_pos hl]
    intro hcon
    exact h3a (headq_of_dropLast hcon)
  · rw [if_neg hl]; exact h3a

/-- A string whose characters are allowed-or-hyphen, with no double
hyphen, no leading hyphen and no trailing hyphen or underscore, is a
fixed point of the sanitizer. -/
theorem sanitize_fixed (s : List Char) (hchar : ∀ c ∈ s, okChar c = true)
    (hdh : noDH s = true) (hhead : s.head? ≠ some '-')
    (hlast : ¬(s.getLast? = some '-' ∨ s.getLast? = some '_')) :
    sanitizeFilename s = s := by
  have h1 : step1 s = s := (collapse1_id s hchar hdh).1
  have h2 : step2 s = s := (collapse2_id s hdh).1
  show step3b (step3a (step2 (step1 s))) = s
  rw [h1, h2]
  rw [step3a, if_neg hhead, step3b, if_neg hlast]

theorem step3a_shape (s : List Char) :
    ∃ a : List Char, a.length ≤ 1 ∧ s = a ++ step3a s := by
  by_cases hh : s.head? = some '-'
  · refine ⟨['-'], by simp, ?_⟩
    rw [step3a, if_pos hh]
    exact eq_cons_tail_of_headq hh
  · refine ⟨[], by simp, ?_⟩
    rw [step3a, if_neg hh]
    rfl

theorem step3b_shape (t : List Char) :
    ∃ b : List Char, b.length ≤ 1 ∧ t = step3b t ++ b := by
  by_cases hl : t.getLast? = some '-' ∨ t.getLast? = some '_'
  · rw [step3b, if_pos hl]
    rcases hl with hl | hl
    · exact ⟨['-'], by simp,
        (List.dropLast_append_getLast? '-' (Option.mem_def.mpr hl)).symm⟩
    · exact ⟨['_'], by simp,
        (List.dropLast_append_getLast? '_' (Option.mem_def.mpr hl)).symm⟩
  · rw [step3b, if_neg hl]
    exact ⟨[], by simp, by simp⟩

theorem step3_shape (t : List Char) :
    ∃ a b : List Char, t = a ++ step3 t ++ b ∧ a.length ≤ 1 ∧ b.length ≤ 1 := by
  obtain ⟨a, ha, hsa⟩ := step3a_shape t
  obtain ⟨b, hb, hsb⟩ := step3b_shape (step3a t)
  refine ⟨a, b, ?_, ha, hb⟩
  conv_lhs => rw [hsa]
  rw [hsb, step3]
  simp [List.append_assoc]

/-- C3 counterexample: the sanitizer is not idempotent as claimed — on
the input base name "x_-" one application gives "x_" and a second
application shortens it further to "x". -/
theorem sanitize_not_idempotent_cex :
    sanitizeFilename (sanitizeFilename ("x_-".toList)) ≠
      sanitizeFilename ("x_-".toList) := by decide

/-- C3 (amended): the sanitizer is idempotent on every input whose
sanitized form does not end in a hyphen or an underscore; sanitized
forms with such a trailing character (possible because the trailing trim
looks only at the original final character) can shrink again. -/
theorem sanitize_idempotent_unless_trailing (x : List Char)
    (h1 : (sanitizeFilename x).getLast? ≠ some '-')
    (h2 : (sanitizeFilename x).getLast? ≠ some '_') :
    sanitizeFilename (sanitizeFilename x) = sanitizeFilename x := by
  apply sanitize_fixed
  · intro c hc
    have hc1 : c ∈ step3a (step2 (step1 x)) := step3b_subset _ c hc
    have hc2 : c ∈ step2 (step1 x) := step3a_subset _ c hc1
    have hc3 : c ∈ step1 x := collapse2_subset false _ c hc2
    exact okChar_collapseDisallowed false x c hc3
  · exact step3_noDH (collapse2_noDH (step1 x)).1
  · exact step3_headq (collapse2_noDH (step1 x)).1
  · rintro (hl | hl)
    · exact h1 hl
    · exact h2 hl

/-- Witness for C3 (amended) at the concrete base name "My Video (1)",
whose sanitized form "My-Video-1" ends in a digit. -/
theorem sanitize_idempotent_unless_trailing_witness :
    (sanitizeFilename ("My Video (1)".toList)).getLast? ≠ some '-' ∧
      (sanitizeFilename ("My Video (1)".toList)).getLast? ≠ some '_' ∧
      sanitizeFilename (sanitizeFilename ("My Video (1)".toList)) =
        sanitizeFilename ("My Video (1)".toList) :=
  ⟨by decide, by decide,
    sanitize_idempotent_unless_trailing ("My Video (1)".toList)
      (by decide) (by decide)⟩

/-- C4 counterexample: sanitizing the base name of "__weird__name_.mov"
does not give "weird-name" — underscores are inside the sanitizer's
allowed character class, so the leading and interior underscore runs
survive. -/
theorem weird_name_cex :
    sanitizeFilename ("__weird__name_".toList) ≠ "weird-name".toList := by
  decide

/-- C4 (amended): sanitizing the base name "__weird__name_" (extension
already stripped) yields "__weird__name": only the single trailing
underscore is trimmed, every other underscore is kept. -/
theorem weird_name_sanitized :
    sanitizeFilename ("__weird__name_".toList) = "__weird__name".toList := by
  decide

/-- C5 counterexample: the claimed sequential trailing trim is wrong —
for the base name "x_-" the code removes only the final hyphen, giving
"x_", not "x". -/
theorem trailing_trim_cex :
    sanitizeFilename ("x_-".toList) = "x_".toList ∧
      sanitizeFilename ("x_-".toList) ≠ "x".toList := by decide

/-- C5 (amended): sanitization strips the extension, collapses each
disallowed run to one hyphen, collapses hyphen runs, and then one
simultaneous trimming pass removes at most one leading hyphen and at
most one trailing character (the original final character, when it is a
hyphen or an underscore); in particular base name "My Video (1)" yields
"My-Video-1" and base name "x_-" yields "x_". -/
theorem sanitize_steps :
    (∀ x : List Char, ∃ a b : List Char,
        step2 (step1 x) = a ++ sanitizeFilename x ++ b ∧
          a.length ≤ 1 ∧ b.length ≤ 1) ∧
      sanitizeFilename ("My Video (1)".toList) = "My-Video-1".toList ∧
      sanitizeFilename ("x_-".toList) = "x_".toList :=
  ⟨fun x => step3_shape (step2 (step1 x)), by decide, by decide⟩

/-- C7: a decoded key is accepted by the validation of lines 73-76
exactly when it has the form `source/<segment>/<segment>.<ext>` — two
non-empty slash-free segments after the prefix, the filename carrying a
separator with non-empty stem and extension; in particular
`source/abc123/video.mp4` is accepted while `source/abc123/sub/video.mp4`
and `source/video.mp4` are rejected. -/
theorem key_validation_characterization :
    (∀ k : List Char, sourceKeyTest k = true ↔ specValidKey k) ∧
      sourceKeyTest ("source/abc123/video.mp4".toList) = true ∧
      sourceKeyTest ("source/abc123/sub/video.mp4".toList) = false ∧
      sourceKeyTest ("source/video.mp4".toList) = false :=
  ⟨sourceKeyTest_iff, by decide, by decide, by decide⟩

/-- C1: contrary to the claim, the synthesized master playlist does not
carry the profiles' declared resolutions — the objects mapped at
lines 145-152 were pushed at line 112 without `width`/`height` fields,
so every stream-information entry reads
`RESOLUTION=undefinedxundefined`. -/
theorem master_resolution_undefined :
    masterChars =
      ("#EXTM3U\n#EXT-X-VERSION:3\n" ++
        "#EXT-X-STREAM-INF:BANDWIDTH=5000000,RESOLUTION=undefinedxundefined\n1080p.m3u8\n" ++
        "#EXT-X-STREAM-INF:BANDWIDTH=3000000,RESOLUTION=undefinedxundefined\n720p.m3u8\n" ++
        "#EXT-X-STREAM-INF:BANDWIDTH=1500000,RESOLUTION=undefinedxundefined\n480p.m3u8").toList ∧
      infLinesOf masterChars =
        ["#EXT-X-STREAM-INF:BANDWIDTH=5000000,RESOLUTION=undefinedxundefined".toList,
         "#EXT-X-STREAM-INF:BANDWIDTH=3000000,RESOLUTION=undefinedxundefined".toList,
         "#EXT-X-STREAM-INF:BANDWIDTH=1500000,RESOLUTION=undefinedxundefined".toList] := by
  exact ⟨by decide, by decide⟩

/-- C9: the master playlist synthesized after a fully successful ladder
opens with the two header lines, then holds exactly three
stream-information lines whose BANDWIDTH values are 5000000, 3000000 and
1500000 in ladder order, each followed by the bare (slash-free)
rendition playlist filename. -/
theorem master_playlist_structure :
    linesOf masterChars =
      ["#EXTM3U".toList,
       "#EXT-X-VERSION:3".toList,
       "#EXT-X-STREAM-INF:BANDWIDTH=5000000,RESOLUTION=undefinedxundefined".toList,
       "1080p.m3u8".toList,
       "#EXT-X-STREAM-INF:BANDWIDTH=3000000,RESOLUTION=undefinedxundefined".toList,
       "720p.m3u8".toList,
       "#EXT-X-STREAM-INF:BANDWIDTH=1500000,RESOLUTION=undefinedxundefined".toList,
       "480p.m3u8".toList] ∧
      (linesOf masterChars).take 2 = ["#EXTM3U".toList, "#EXT-X-VERSION:3".toList] ∧
      (infLinesOf masterChars).length = 3 ∧
      (infLinesOf masterChars).map bandwidthOf =
        [some 5000000, some 3000000, some 1500000] ∧
      noSlash ("1080p.m3u8".toList) = true ∧
      noSlash ("720p.m3u8".toList) = true ∧
      noSlash ("480p.m3u8".toList) = true := by
  refine ⟨by decide, by decide, by decide, by decide, by decide, by decide, by decide⟩

theorem put_notin_cleanupEffs (fs : FS) (b' k' : List Char) :
    Eff.put b' k' ∉ cleanupEffs fs := by
  cases hin : fs.input <;> cases hout : fs.outDir <;>
    simp [cleanupEffs, hin, hout]

theorem put_notin_ladderGo (o : Oracles) (b' k' : List Char) :
    ∀ (rs : List Res) (fs : FS), Eff.put b' k' ∉ (ladderGo o fs rs).2.2 := by
  intro rs
  induction rs with
  | nil => intro fs h; simp [ladderGo] at h
  | cons r rest ih =>
    intro fs h
    simp only [ladderGo] at h
    by_cases he : o.encOk r.name = true
    · rw [if_pos he] at h
      rcases List.mem_cons.mp h with hx | hx
      · exact Eff.noConfusion hx
      · exact ih _ hx
    · rw [if_neg he] at h
      exact Eff.noConfusion (List.mem_singleton.mp h)

theorem uploadsGo_put_bucket (o : Oracles) (bucket pre b' k' : List Char) :
    ∀ fl : List (List Char),
      Eff.put b' k' ∈ (uploadsGo o bucket pre fl).2 → b' = bucket := by
  intro fl
  induction fl with
  | nil => intro h; simp [uploadsGo] at h
  | cons f rest ih =>
    intro h
    simp only [uploadsGo] at h
    by_cases hp : o.putOk f = true
    · rw [if_pos hp] at h
      rcases List.mem_cons.mp h with hx | hx
      · injection hx with hb hk
      · exact ih hx
    · rw [if_neg hp] at h
      injection List.mem_singleton.mp h with hb hk

theorem processStage_clean (o : Oracles) (bucket key : List Char) (fs : FS) :
    (processStage o bucket key fs).2.1 = cleanFS := by
  unfold processStage
  by_cases hf : o.fetchOk = true
  · rw [if_pos hf]
    simp only
    (repeat' split) <;> rfl
  · rw [if_neg hf]

theorem processStage_put_bucket (o : Oracles) (bucket key : List Char)
    (fs : FS) (b' k' : List Char)
    (h : Eff.put b' k' ∈ (processStage o bucket key fs).2.2) : b' = bucket := by
  unfold processStage at h
  by_cases hf : o.fetchOk = true
  · rw [if_pos hf] at h
    simp only at h
    split at h
    · simp at h
      rcases h with h | h
      · exact absurd h (put_notin_ladderGo o b' k' resolutions _)
      · exact absurd h (put_notin_cleanupEffs _ b' k')
    · split at h
      · split at h <;>
          · simp at h
            rcases h with h | h | h
            · exact absurd h (put_notin_ladderGo o b' k' resolutions _)
            · exact uploadsGo_put_bucket o bucket _ b' k' _ h
            · exact absurd h (put_notin_cleanupEffs _ b' k')
      · simp at h
        rcases h with h | h | h
        · exact absurd h (put_notin_ladderGo o b' k' resolutions _)
        · exact uploadsGo_put_bucket o bucket _ b' k' _ h
        · exact absurd h (put_notin_cleanupEffs _ b' k')
  · rw [if_neg hf] at h
    simp at h
    exact absurd h (put_notin_cleanupEffs _ b' k')

/-- C10: every upload performed by an invocation goes to the bucket the
source object came from — line 70 sets the target bucket to the source
bucket, and the upload loop uses it for every file. -/
theorem uploads_target_source_bucket (o : Oracles) (bucket key : List Char)
    (fs : FS) (b' k' : List Char)
    (h : Eff.put b' k' ∈ (handlerModel o bucket key fs).2.2) : b' = bucket := by
  unfold handlerModel at h
  by_cases hg : o.gcpKey = true
  · rw [if_pos hg] at h
    by_cases hv : sourceKeyTest key = true
    · rw [if_pos hv] at h
      simp only at h
      simp at h
      exact processStage_put_bucket o bucket key fs b' k' h
    · rw [if_neg hv] at h
      simp at h
  · rw [if_neg hg] at h
    simp at h

/-- Witness for C10: the successful run over `source/u1/clip.mp4`
uploads the 1080p rendition playlist, and the theorem instantiated at
that upload yields the (trivially checkable) bucket equality. -/
theorem uploads_target_source_bucket_witness :
    Eff.put ("b".toList) ("hls/u1/clip/1080p.m3u8".toList) ∈
      (handlerModel allOk ("b".toList) ("source/u1/clip.mp4".toList) fs0).2.2 ∧
      "b".toList = "b".toList :=
  ⟨by decide,
    uploads_target_source_bucket allOk ("b".toList)
      ("source/u1/clip.mp4".toList) fs0 ("b".toList)
      ("hls/u1/clip/1080p.m3u8".toList) (by decide)⟩

/-- C2 counterexample: cleanup is skipped on the exits that happen
before the `try` block — with a malformed key the invocation ends in a
validation error, and with `GCP_SERVICE_KEY` unset in a credential
error, and in both cases a pre-existing local input file and output
directory survive untouched. -/
theorem cleanup_skipped_cex :
    handlerModel allOk ("b".toList) ("source/video.mp4".toList) fsDirty =
      (Outcome.validationErr, fsDirty, [Eff.auth, Eff.validate]) ∧
      fsDirty.input = true ∧ fsDirty.outDir = true ∧
      handlerModel { allOk with gcpKey := false } ("b".toList)
          ("source/u1/clip.mp4".toList) fsDirty =
        (Outcome.authErr, fsDirty, [Eff.auth]) := by decide

/-- C2 (amended): every invocation that passes the credential check and
key validation — i.e. that reaches the `try` block — terminates with the
local input file and output directory removed, whatever its outcome;
the validation-error and missing-credential exits happen before the
cleanup-protected region (and create no local state of their own). -/
theorem cleanup_after_validation (o : Oracles) (bucket key : List Char)
    (fs : FS) (hg : o.gcpKey = true) (hv : sourceKeyTest key = true) :
    ((handlerModel o bucket key fs).2.1).input = false ∧
      ((handlerModel o bucket key fs).2.1).outDir = false := by
  unfold handlerModel
  rw [if_pos hg, if_pos hv]
  simp only
  rw [processStage_clean]
  exact ⟨rfl, rfl⟩

/-- Witness for C2 (amended) at a concrete fully successful run. -/
theorem cleanup_after_validation_witness :
    allOk.gcpKey = true ∧
      sourceKeyTest ("source/u1/clip.mp4".toList) = true ∧
      ((handlerModel allOk ("b".toList) ("source/u1/clip.mp4".toList)
          fs0).2.1).input = false ∧
      ((handlerModel allOk ("b".toList) ("source/u1/clip.mp4".toList)
          fs0).2.1).outDir = false :=
  ⟨rfl, by decide,
    (cleanup_after_validation allOk ("b".toList)
      ("source/u1/clip.mp4".toList) fs0 rfl (by decide)).1,
    (cleanup_after_validation allOk ("b".toList)
      ("source/u1/clip.mp4".toList) fs0 rfl (by decide)).2⟩

/-- C6 counterexample: for a malformed key the invocation ends at
validation with the trace `[auth, validate]` — no fetch effect ever
occurs, contradicting the claimed fetch-before-validate order. -/
theorem fetch_order_cex :
    handlerModel allOk ("b".toList) ("source/video.mp4".toList) fs0 =
      (Outcome.validationErr, fs0, [Eff.auth, Eff.validate]) := by decide

/-- C6 (amended): the stages run in the order authenticate, validate
and sanitize, fetch, encode ladder, synthesize master, upload all,
notify, cleanup — validation precedes the fetch, so no fetch attempt is
made for a malformed key. -/
theorem stage_order :
    (∀ (o : Oracles) (bucket key : List Char) (fs : FS),
        o.gcpKey = true → sourceKeyTest key = false →
          (handlerModel o bucket key fs).2.2 = [Eff.auth, Eff.validate]) ∧
      (handlerModel allOk ("b".toList) ("source/u1/clip.mp4".toList)
          fs0).2.2 =
        [Eff.auth, Eff.validate,
         Eff.fetch ("b".toList) ("source/u1/clip.mp4".toList),
         Eff.encode ("1080p".toList), Eff.encode ("720p".toList),
         Eff.encode ("480p".toList), Eff.writeMaster,
         Eff.put ("b".toList) ("hls/u1/clip/1080p.m3u8".toList),
         Eff.put ("b".toList) ("hls/u1/clip/720p.m3u8".toList),
         Eff.put ("b".toList) ("hls/u1/clip/480p.m3u8".toList),
         Eff.put ("b".toList) ("hls/u1/clip/master.m3u8".toList),
         Eff.publish, Eff.rmInput, Eff.rmOutputDir] := by
  constructor
  · intro o bucket key fs hg hv
    unfold handlerModel
    have hv' : ¬(sourceKeyTest key = true) := by rw [hv]; simp
    rw [if_pos hg, if_neg hv']
  · decide

/-- Witness for C6 (amended) at a concrete malformed key. -/
theorem stage_order_witness :
    sourceKeyTest ("source/video.mp4".toList) = false ∧
      (handlerModel allOk ("b".toList) ("source/video.mp4".toList)
          fs0).2.2 = [Eff.auth, Eff.validate] :=
  ⟨by decide,
    stage_order.1 allOk ("b".toList) ("source/video.mp4".toList) fs0 rfl
      (by decide)⟩

theorem ladderGo_second_fails (o : Oracles)
    (h1 : o.encOk ("1080p".toList) = true)
    (h2 : o.encOk ("720p".toList) = false) (g : FS) :
    ladderGo o g resolutions =
      ({ g with files := g.files ++ o.segsFor ("1080p".toList) ++
          ["1080p.m3u8".toList] },
        some ("720p".toList),
        [Eff.encode ("1080p".toList), Eff.encode ("720p".toList)]) := by
  simp at h1 h2
  simp [resolutions, ladderGo, h1, h2]

/-- C8: the encode ladder is strictly sequential and fail-fast — when
the first profile succeeds and the second profile's encoder exits
non-zero, the ladder stops with exactly two encoder invocations, the
third profile is never invoked and gains no rendition output, the
failure identifies the second profile, the first profile's files are
left in place, and the whole invocation fails with that encode error. -/
theorem ladder_fail_fast (o : Oracles) (bucket key : List Char) (fs : FS)
    (h1 : o.encOk ("1080p".toList) = true)
    (h2 : o.encOk ("720p".toList) = false) :
    ladderGo o fs resolutions =
      ({ fs with files := fs.files ++ o.segsFor ("1080p".toList) ++
          ["1080p.m3u8".toList] },
        some ("720p".toList),
        [Eff.encode ("1080p".toList), Eff.encode ("720p".toList)]) ∧
      Eff.encode ("480p".toList) ∉ (ladderGo o fs resolutions).2.2 ∧
      (o.gcpKey = true → sourceKeyTest key = true → o.fetchOk = true →
        (handlerModel o bucket key fs).1 =
          Outcome.encodeErr ("720p".toList)) := by
  refine ⟨ladderGo_second_fails o h1 h2 fs, ?_, ?_⟩
  · rw [ladderGo_second_fails o h1 h2 fs]
    simp
  · intro hg hv hf
    unfold handlerModel processStage
    rw [if_pos hg, if_pos hv, if_pos hf]
    simp only
    rw [ladderGo_second_fails o h1 h2]

/-- Witness for C8 at a concrete environment where the second profile's
encoder fails. -/
theorem ladder_fail_fast_witness :
    failSecond.encOk ("1080p".toList) = true ∧
      failSecond.encOk ("720p".toList) = false ∧
      Eff.encode ("480p".toList) ∉
        (ladderGo failSecond fs0 resolutions).2.2 ∧
      (handlerModel failSecond ("b".toList) ("source/u1/clip.mp4".toList)
          fs0).1 = Outcome.encodeErr ("720p".toList) :=
  ⟨by decide, by decide,
    (ladder_fail_fast failSecond ("b".toList) ("source/u1/clip.mp4".toList)
      fs0 (by decide) (by decide)).2.1,
    (ladder_fail_fast failSecond ("b".toList) ("source/u1/clip.mp4".toList)
      fs0 (by decide) (by decide)).2.2 rfl (by decide) rfl⟩

end FfmpegConverter
